import Mathlib

/-!
Shallow embedding of the ClipCompass highlight pipeline (`src/processing.py`):
the highlight selector, caption word-wrap and escaping, the per-clip render
loop with its failure handling, and the reel-assembly command construction.
Strings are modelled as `List Char`, Python floats as `ℚ`, and the external
encoder as an oracle reporting per-clip success or failure.
-/

namespace ClipCompass

/-- Convert a Lean string literal to the `List Char` representation used
throughout this development. -/
def chars (s : String) : List Char := s.toList

/-- The apostrophe character `'`. -/
def quoteChar : Char := Char.ofNat 39

/-- The backslash character `\`. -/
def bslash : Char := Char.ofNat 92

/-- One transcript segment as produced by `transcribe` in `processing.py`
(fields `start`, `end`, `text`, `duration`, `keywords`). -/
structure Segment where
  start : ℚ
  «end» : ℚ
  text : List Char
  duration : ℚ
  keywords : ℕ
deriving DecidableEq

/-- One rendered highlight clip of `generate_highlight_clips`: the trim window
passed to the encoder (`start`, `end`, its length `duration`), the escaped
caption text burned into the clip, and whether the duration was budget-clamped
(`clamped` records that the `total_duration + clip_duration > max_total_duration`
branch was taken). -/
structure Clip where
  start : ℚ
  «end» : ℚ
  duration : ℚ
  caption : List Char
  clamped : Bool
deriving DecidableEq

/-- Python `s.replace(c, r)` for a single-character pattern `c`. -/
def pyReplaceChar (c : Char) (r : List Char) (s : List Char) : List Char :=
  s.flatMap (fun ch => if ch = c then r else [ch])

/-- `safe_text = text.replace("'", "").replace(":", "\\:").replace(",", "\\,")`
(lines 92 and 176 of `processing.py`). -/
def escapeText (s : List Char) : List Char :=
  pyReplaceChar ',' [bslash, ','] (pyReplaceChar ':' [bslash, ':'] (pyReplaceChar quoteChar [] s))

/-- `" ".join(current_line)`. -/
def joinSpace : List (List Char) → List Char
  | [] => []
  | [w] => w
  | w :: ws => w ++ ' ' :: joinSpace ws

/-- `"\n".join(lines)`. -/
def joinNL : List (List Char) → List Char
  | [] => []
  | [l] => l
  | l :: ls => l ++ '\n' :: joinNL ls

/-- Helper for Python `str.split()`: split on whitespace runs, dropping empty
words; `acc` is the current word being accumulated, reversed. -/
def splitWordsGo : List Char → List Char → List (List Char)
  | acc, [] => if acc = [] then [] else [acc.reverse]
  | acc, c :: rest =>
    if c.isWhitespace then
      if acc = [] then splitWordsGo [] rest else acc.reverse :: splitWordsGo [] rest
    else splitWordsGo (c :: acc) rest

/-- Python `text.split()`. -/
def splitWords (s : List Char) : List (List Char) := splitWordsGo [] s

/-- The caption word-wrap loop of `generate_highlight_clips` (lines 81-89 of
`processing.py`), wrapping at the fixed width 60: state is `(lines, current_line)`
and the loop walks the remaining words. -/
def wrapGo : List (List Char) → List (List Char) → List (List Char) → List (List Char)
  | lines, current, [] => if current = [] then lines else lines ++ [joinSpace current]
  | lines, current, w :: ws =>
    if (current.map List.length).sum + current.length + w.length ≤ 60 then
      wrapGo lines (current ++ [w]) ws
    else
      wrapGo (lines ++ [joinSpace current]) [w] ws

/-- The list of caption lines produced for a given word list. -/
def wrapLines (words : List (List Char)) : List (List Char) := wrapGo [] [] words

/-- `wrapped_text = "\n".join(lines)` for the wrap of `text.split()`. -/
def wrappedText (text : List Char) : List Char := joinNL (wrapLines (splitWords text))

/-- The comparator realising
`sorted(..., key=lambda x: (x["keywords"], x["duration"]), reverse=True)`:
`segLe a b` holds when `a` may come before `b` in the descending order, i.e.
when the key of `a` is lexicographically at least the key of `b`. A stable
sort with this comparator is exactly Python's stable descending sort. -/
def segLe (a b : Segment) : Bool :=
  decide (b.keywords < a.keywords ∨ (b.keywords = a.keywords ∧ b.duration ≤ a.duration))

/-- The ranked candidate list of `generate_highlight_clips` (lines 56-60 of
`processing.py`): filter to `duration > 5`, then stable-sort descending by
`(keywords, duration)`. -/
def highlights (segments : List Segment) : List Segment :=
  (segments.filter (fun s => decide (5 < s.duration))).mergeSort segLe

/-- Sum of the durations of a clip list (the running `total_duration`). -/
def sumDur (clips : List Clip) : ℚ := (clips.map Clip.duration).sum

/-- The selection/render loop of `generate_highlight_clips` (lines 62-123 of
`processing.py`). `ok idx` tells whether the external encoder succeeds on the
`idx`-th iteration (`ffmpeg.Error` is caught there: the clip is skipped and the
loop continues). State: remaining highlights, loop index `idx`, accumulated
`clip_files` and `total_duration`. -/
def generateGo (maxClips : ℕ) (maxTotal : ℚ) (ok : ℕ → Bool) :
    List Segment → ℕ → List Clip → ℚ → List Clip
  | [], _, clipFiles, _ => clipFiles
  | s :: rest, idx, clipFiles, totalDuration =>
    if maxClips ≤ clipFiles.length ∨ maxTotal ≤ totalDuration then clipFiles
    else
      let d0 := s.«end» - s.start
      let d := if maxTotal < totalDuration + d0 then maxTotal - totalDuration else d0
      let e := if maxTotal < totalDuration + d0 then s.start + (maxTotal - totalDuration) else s.«end»
      if ok idx then
        generateGo maxClips maxTotal ok rest (idx + 1)
          (clipFiles ++ [⟨s.start, e, d, escapeText (wrappedText s.text),
            decide (maxTotal < totalDuration + d0)⟩])
          (totalDuration + d)
      else
        generateGo maxClips maxTotal ok rest (idx + 1) clipFiles totalDuration

/-- `generate_highlight_clips(video_path, output_folder, segments, max_clips,
max_total_duration)`, modelled on its returned clip list (file-system paths and
the uuid filename draw carry no selection logic and are modelled separately). -/
def generate_highlight_clips (segments : List Segment) (maxClips : ℕ) (maxTotal : ℚ)
    (ok : ℕ → Bool) : List Clip :=
  generateGo maxClips maxTotal ok (highlights segments) 0 [] 0

/-- The sublist of a highlight list keeping the positions where the render
oracle reports success, starting the count at `idx`. -/
def keepOk (ok : ℕ → Bool) : ℕ → List Segment → List Segment
  | _, [] => []
  | idx, s :: rest => if ok idx then s :: keepOk ok (idx + 1) rest else keepOk ok (idx + 1) rest

/-- `clip_filename = f"{uuid.uuid4()}.mp4"` (line 77 of `processing.py`),
as a function of the drawn uuid text. -/
def clip_filename (u : List Char) : List Char := u ++ chars ".mp4"

/-- `os.path.join(folder, name)` for a relative `name`. -/
def pathJoin (a b : List Char) : List Char := a ++ '/' :: b

/-- Helper for `natRepr`: standard base-10 digit extraction, with a fuel
argument to keep the recursion structural. -/
def natReprGo : ℕ → ℕ → List Char → List Char
  | 0, _, acc => acc
  | fuel + 1, n, acc =>
    if n < 10 then Char.ofNat (48 + n) :: acc
    else natReprGo fuel (n / 10) (Char.ofNat (48 + n % 10) :: acc)

/-- Decimal rendering of a natural number, as Python `str`/f-string
interpolation produces for the loop index and the input count. -/
def natRepr (n : ℕ) : List Char := natReprGo (n + 1) n []

/-- `intro_path = os.path.join(clips_folder, "intro.mp4")` (line 153). -/
def intro_path (clipsFolder : List Char) : List Char := pathJoin clipsFolder (chars "intro.mp4")

/-- `outro_path = os.path.join(clips_folder, "outro.mp4")` (line 154). -/
def outro_path (clipsFolder : List Char) : List Char := pathJoin clipsFolder (chars "outro.mp4")

/-- The default of the `output_file` parameter of `combine_clips_into_reel`. -/
def default_output_file : List Char := chars "highlight_reel.mp4"

/-- `all_files = [intro_path] + [os.path.join(clips_folder, f) for f in clip_files]
+ [outro_path]` (line 210). -/
def all_files (clipsFolder : List Char) (clipFiles : List (List Char)) : List (List Char) :=
  [intro_path clipsFolder] ++ clipFiles.map (fun f => pathJoin clipsFolder f) ++ [outro_path clipsFolder]

/-- One entry of `filter_parts`: `f"[{idx}:v:0][{idx}:a:0]"` (line 219). -/
def filterPart (idx : ℕ) : List Char :=
  chars "[" ++ natRepr idx ++ chars ":v:0][" ++ natRepr idx ++ chars ":a:0]"

/-- `filter_complex = "".join(filter_parts) + f"concat=n={len(all_files)}:v=1:a=1[outv][outa]"`
(line 221), for `n` input files. -/
def filter_complex (n : ℕ) : List Char :=
  (List.range n).flatMap filterPart ++ chars "concat=n=" ++ natRepr n ++ chars ":v=1:a=1[outv][outa]"

/-- `inputs.extend(["-i", file])` for each file (line 218). -/
def inputArgs (files : List (List Char)) : List (List Char) :=
  files.flatMap (fun f => [chars "-i", f])

/-- The `concat_cmd` argument list (lines 223-232 of `processing.py`). -/
def concat_cmd (clipsFolder : List Char) (clipFiles : List (List Char))
    (outputFile : List Char) : List (List Char) :=
  [chars "ffmpeg", chars "-y"] ++ inputArgs (all_files clipsFolder clipFiles) ++
  [chars "-filter_complex", filter_complex (all_files clipsFolder clipFiles).length] ++
  [chars "-map", chars "[outv]", chars "-map", chars "[outa]",
   chars "-c:v", chars "libx264", chars "-preset", chars "veryfast", chars "-crf", chars "23",
   chars "-c:a", chars "aac", chars "-b:a", chars "128k",
   chars "-movflags", chars "faststart",
   pathJoin clipsFolder outputFile]

/-- The file-system and encoder invocation plan that one call of
`combine_clips_into_reel` commits to: the card paths it writes, the reel
output path, the ordered input file list, and the concatenation command. -/
structure ReelPlan where
  outputPath : List Char
  introPath : List Char
  outroPath : List Char
  allFiles : List (List Char)
  filterGraph : List Char
  concatCmd : List (List Char)
deriving DecidableEq

/-- `combine_clips_into_reel(clip_files, clips_folder, output_file, ...)`
(lines 132-253 of `processing.py`): with an empty `clip_files` it prints and
returns `None` before writing anything; otherwise it fixes the card and reel
paths and builds the concatenation command. -/
def combine_clips_into_reel (clipFiles : List (List Char)) (clipsFolder : List Char)
    (outputFile : List Char) : Option ReelPlan :=
  if clipFiles = [] then none
  else some
    { outputPath := pathJoin clipsFolder outputFile
      introPath := intro_path clipsFolder
      outroPath := outro_path clipsFolder
      allFiles := all_files clipsFolder clipFiles
      filterGraph := filter_complex (all_files clipsFolder clipFiles).length
      concatCmd := concat_cmd clipsFolder clipFiles outputFile }

/-- `pat` matches at the head of `s`. -/
def leadsWith : List Char → List Char → Bool
  | [], _ => true
  | _ :: _, [] => false
  | a :: pat, b :: s => a == b && leadsWith pat s

/-- `pat` occurs as a contiguous substring of `s`. -/
def occursSub (pat s : List Char) : Bool := s.tails.any (fun t => leadsWith pat t)

/-- Some argument of a command mentions `pat` as a substring. -/
def hasArgWith (pat : List Char) (cmd : List (List Char)) : Bool :=
  cmd.any (fun a => occursSub pat a)

/-- Render-success oracle reporting success on every encoder invocation. -/
def okTrue : ℕ → Bool := fun _ => true

/-- The per-character action realised by the three chained `replace` calls of
`escapeText`: quotes are deleted, colons and commas get a backslash, every
other character passes through unchanged. -/
def escChar (ch : Char) : List Char :=
  if ch = quoteChar then []
  else if ch = ':' then [bslash, ':']
  else if ch = ',' then [bslash, ',']
  else [ch]

/-- `noBare prev s` checks that in `s` every colon and comma is immediately
preceded by a backslash; `prev` is the character just before `s`, if any. -/
def noBare : Option Char → List Char → Bool
  | _, [] => true
  | prev, c :: rest =>
    (if c = ':' ∨ c = ',' then decide (prev = some bslash) else true) && noBare (some c) rest

/-- A well-formed caption line relative to the word list `U` it was wrapped
from: it is within the 60-character width unless it is a single over-long
input word, and it is always a space-join of input words (never a mid-word
split). -/
def goodLine (U : List (List Char)) (l : List Char) : Prop :=
  (l.length ≤ 60 ∨ (60 < l.length ∧ l ∈ U)) ∧
  ∃ gs : List (List Char), (∀ g ∈ gs, g ∈ U) ∧ l = joinSpace gs

/-- The example segment list of spec §8: `[{0,3,"ok"}, {3,12,"this is amazing
and important"}, {12,20,"note this too"}]` with the keyword counts `transcribe`
would assign under `HIGHLIGHT_KEYWORDS`. -/
def exSegments : List Segment :=
  [⟨0, 3, chars "ok", 3, 0⟩,
   ⟨3, 12, chars "this is amazing and important", 9, 2⟩,
   ⟨12, 20, chars "note this too", 8, 1⟩]

/-- The middle segment of `exSegments` (two keyword hits). -/
def exSegB : Segment := ⟨3, 12, chars "this is amazing and important", 9, 2⟩

/-- Segments realising the spec's boundary scenario: after accepting the first
65s segment of a 90s budget, a 40s segment is offered with 25s remaining. -/
def clampSegments : List Segment :=
  [⟨0, 65, chars "k", 65, 1⟩, ⟨65, 105, chars "m", 40, 0⟩]

/-- The clip the loop produces for the second entry of `clampSegments`: the
40s segment clamped to the 25s of budget remaining. -/
def clampClip : Clip := ⟨65, 90, 25, chars "m", true⟩

/-! ### Caption escaping -/

theorem escapeText_append (x y : List Char) :
    escapeText (x ++ y) = escapeText x ++ escapeText y := by
  simp [escapeText, pyReplaceChar]

theorem escapeText_single (c : Char) : escapeText [c] = escChar c := by
  by_cases h1 : c = quoteChar
  · subst h1; decide
  · by_cases h2 : c = ':'
    · subst h2; decide
    · by_cases h3 : c = ','
      · subst h3; decide
      · simp [escapeText, pyReplaceChar, escChar, h1, h2, h3]

theorem escapeText_flatMap (s : List Char) : escapeText s = s.flatMap escChar := by
  induction s with
  | nil => rfl
  | cons c s ih =>
    have h : c :: s = [c] ++ s := rfl
    rw [h, escapeText_append, escapeText_single, ih]
    simp

theorem quote_not_mem_escapeText (s : List Char) : quoteChar ∉ escapeText s := by
  rw [escapeText_flatMap]
  intro h
  rw [List.mem_flatMap] at h
  obtain ⟨c, -, hc⟩ := h
  unfold escChar at hc
  split_ifs at hc with h1 h2 h3 <;> simp_all <;> revert hc <;> decide

theorem noBare_escapeText (s : List Char) : ∀ prev, noBare prev (escapeText s) = true := by
  rw [escapeText_flatMap]
  induction s with
  | nil => intro prev; rfl
  | cons c s ih =>
    intro prev
    rw [List.flatMap_cons]
    by_cases h1 : c = quoteChar
    · subst h1
      simpa [escChar] using ih prev
    · by_cases h2 : c = ':'
      · subst h2
        simpa [escChar, noBare, bslash, quoteChar] using ih (some ':')
      · by_cases h3 : c = ','
        · subst h3
          simpa [escChar, noBare, bslash, quoteChar] using ih (some ',')
        · simpa [escChar, noBare, h1, h2, h3] using ih (some c)

theorem count_escapeText (s : List Char) (c : Char) (h1 : c ≠ quoteChar) (h2 : c ≠ ':')
    (h3 : c ≠ ',') (h4 : c ≠ bslash) : (escapeText s).count c = s.count c := by
  rw [escapeText_flatMap]
  induction s with
  | nil => rfl
  | cons a s ih =>
    have h1s : ¬(quoteChar = c) := fun e => h1 e.symm
    have h2s : ¬((':' : Char) = c) := fun e => h2 e.symm
    have h3s : ¬((',' : Char) = c) := fun e => h3 e.symm
    have h4s : ¬(bslash = c) := fun e => h4 e.symm
    rw [List.flatMap_cons, List.count_append, ih, List.count_cons]
    unfold escChar
    split_ifs with g1 g2 g3 <;>
      simp_all [List.count_cons, List.count_nil, beq_iff_eq] <;> omega

/-- C5: the caption-escaping transformation
`text.replace("'","").replace(":","\\:").replace(",","\\,")` is NOT idempotent:
on the one-character input `":"` a single application yields `\:` but a second
application re-escapes the colon inside the already-escaped sequence, yielding
`\\:` (an escaped backslash followed by a bare colon), corrupting it. This
evaluates the code at the failing input, refuting the claimed/required
idempotence. -/
theorem C5_escape_not_idempotent :
    escapeText (chars ":") = [bslash, ':'] ∧
    escapeText (escapeText (chars ":")) = [bslash, bslash, ':'] ∧
    escapeText (escapeText (chars ":")) ≠ escapeText (chars ":") := by decide

/-- C6 counterexample: the escaping does NOT neutralize brackets, equals signs
or backslashes — on the input `[=]\` (one bracket pair, an equals sign and a
backslash, all meaningful to the ffmpeg filter syntax) it is the identity, so
those characters reach the filter-graph description unmodified. -/
theorem C6_counterexample : escapeText (chars "[=]\\") = chars "[=]\\" := by decide

/-- C6 (amended): the escaping removes every quote and backslash-prefixes every
colon and comma (so no quote survives and no colon or comma appears bare), but
brackets, equals signs and every other character outside the quote/colon/comma
set pass through unchanged (occurrence counts preserved) — bracket, equals and
backslash are not neutralized, contrary to the original claim. -/
theorem C6_escape_scope_amended (s : List Char) :
    quoteChar ∉ escapeText s ∧
    noBare none (escapeText s) = true ∧
    ∀ c : Char, c ≠ quoteChar → c ≠ ':' → c ≠ ',' → c ≠ bslash →
      (escapeText s).count c = s.count c :=
  ⟨quote_not_mem_escapeText s, noBare_escapeText s none,
    fun c h1 h2 h3 h4 => count_escapeText s c h1 h2 h3 h4⟩

/-- Witness for C6 (amended) at the concrete caption `a:b,[=]`. -/
theorem C6_witness :
    noBare none (escapeText (chars "a:b,[=]")) = true ∧
    (escapeText (chars "a:b,[=]")).count '[' = (chars "a:b,[=]").count '[' := by
  obtain ⟨-, h2, h3⟩ := C6_escape_scope_amended (chars "a:b,[=]")
  exact ⟨h2, h3 '[' (by decide) (by decide) (by decide) (by decide)⟩

/-! ### Caption word-wrap -/

theorem joinSpace_length (ws : List (List Char)) (h : ws ≠ []) :
    (joinSpace ws).length + 1 = (ws.map List.length).sum + ws.length := by
  induction ws with
  | nil => cases h rfl
  | cons w ws ih =>
    cases ws with
    | nil => simp [joinSpace]
    | cons v vs =>
      have hrec := ih (by simp)
      have hstep : joinSpace (w :: v :: vs) = w ++ ' ' :: joinSpace (v :: vs) := rfl
      rw [hstep]
      simp only [List.length_append, List.length_cons, List.map_cons, List.sum_cons] at *
      omega

theorem flush_good (U current : List (List Char))
    (hcur : (joinSpace current).length ≤ 60 ∨ ∃ w ∈ U, current = [w])
    (hcurU : ∀ g ∈ current, g ∈ U) : goodLine U (joinSpace current) := by
  constructor
  · rcases hcur with h | ⟨w, hwU, rfl⟩
    · exact Or.inl h
    · by_cases hlen : (joinSpace [w]).length ≤ 60
      · exact Or.inl hlen
      · right
        refine ⟨by omega, ?_⟩
        simpa [joinSpace] using hwU
  · exact ⟨current, hcurU, rfl⟩

theorem wrapGo_good (U : List (List Char)) :
    ∀ ws : List (List Char), (∀ w ∈ ws, w ∈ U) →
    ∀ lines current : List (List Char),
      (∀ l ∈ lines, goodLine U l) →
      ((joinSpace current).length ≤ 60 ∨ ∃ w ∈ U, current = [w]) →
      (∀ g ∈ current, g ∈ U) →
      ∀ l ∈ wrapGo lines current ws, goodLine U l := by
  intro ws
  induction ws with
  | nil =>
    intro hws lines current hlines hcur hcurU l hl
    simp only [wrapGo] at hl
    by_cases hc : current = []
    · rw [if_pos hc] at hl
      exact hlines l hl
    · rw [if_neg hc] at hl
      rcases List.mem_append.mp hl with h | h
      · exact hlines l h
      · have hjoin : l = joinSpace current := by simpa using h
        subst hjoin
        exact flush_good U current hcur hcurU
  | cons w ws ih =>
    intro hws lines current hlines hcur hcurU l hl
    simp only [wrapGo] at hl
    by_cases hcond : (current.map List.length).sum + current.length + w.length ≤ 60
    · rw [if_pos hcond] at hl
      refine ih (fun v hv => hws v (List.mem_cons_of_mem _ hv)) lines (current ++ [w])
        hlines ?_ ?_ l hl
      · left
        have hne : current ++ [w] ≠ [] := by simp
        have hlen := joinSpace_length (current ++ [w]) hne
        simp only [List.map_append, List.sum_append, List.length_append, List.map_cons,
          List.sum_cons, List.map_nil, List.sum_nil, List.length_cons, List.length_nil] at hlen
        omega
      · intro g hg
        rcases List.mem_append.mp hg with h | h
        · exact hcurU g h
        · rw [show g = w by simpa using h]
          exact hws w (List.mem_cons_self _ _)
    · rw [if_neg hcond] at hl
      refine ih (fun v hv => hws v (List.mem_cons_of_mem _ hv)) (lines ++ [joinSpace current])
        [w] ?_ ?_ ?_ l hl
      · intro l2 hl2
        rcases List.mem_append.mp hl2 with h | h
        · exact hlines l2 h
        · have hjoin : l2 = joinSpace current := by simpa using h
          subst hjoin
          exact flush_good U current hcur hcurU
      · exact Or.inr ⟨w, hws w (List.mem_cons_self _ _), rfl⟩
      · intro g hg
        rw [show g = w by simpa using hg]
        exact hws w (List.mem_cons_self _ _)

/-- C4: every caption line produced by the greedy 60-character word-wrap of
`generate_highlight_clips` is at most 60 characters long, except a line that
is a single input word itself longer than 60 characters; and every line is a
space-join of whole input words, so words are never split mid-word. -/
theorem C4_wrap_width (text line : List Char) (hmem : line ∈ wrapLines (splitWords text)) :
    (line.length ≤ 60 ∨ (60 < line.length ∧ line ∈ splitWords text)) ∧
    ∃ gs : List (List Char), (∀ g ∈ gs, g ∈ splitWords text) ∧ line = joinSpace gs :=
  wrapGo_good (splitWords text) (splitWords text) (fun _ h => h) [] []
    (fun _ h => absurd h (List.not_mem_nil _)) (Or.inl (by decide))
    (fun _ h => absurd h (List.not_mem_nil _)) line hmem

/-- Witness for C4 at the concrete caption text `hi there`. -/
theorem C4_witness :
    (chars "hi there").length ≤ 60 ∨
      (60 < (chars "hi there").length ∧ chars "hi there" ∈ splitWords (chars "hi there")) :=
  (C4_wrap_width (chars "hi there") (chars "hi there") (by decide)).1

/-! ### Highlight ranking -/

theorem segLe_trans (a b c : Segment) (hab : segLe a b) (hbc : segLe b c) : segLe a c := by
  simp only [segLe, decide_eq_true_eq] at *
  rcases hab with h1 | ⟨h1, h1d⟩ <;> rcases hbc with h2 | ⟨h2, h2d⟩
  · exact Or.inl (by omega)
  · exact Or.inl (by omega)
  · exact Or.inl (by omega)
  · exact Or.inr ⟨by omega, le_trans h2d h1d⟩

theorem segLe_total (a b : Segment) : segLe a b || segLe b a := by
  simp only [Bool.or_eq_true, segLe, decide_eq_true_eq]
  rcases Nat.lt_trichotomy a.keywords b.keywords with h | h | h
  · exact Or.inr (Or.inl h)
  · rcases le_total a.duration b.duration with hd | hd
    · exact Or.inr (Or.inr ⟨h, hd⟩)
    · exact Or.inl (Or.inr ⟨h.symm, hd⟩)
  · exact Or.inl (Or.inl h)

/-- C2: the ranked candidate list of `generate_highlight_clips` is a
permutation of exactly those input segments with `duration > 5` (so a segment
with `duration ≤ 5` is never a candidate, whatever its keyword score), it is
sorted by keyword count descending with duration descending as tie-break, and
the sort is stable: candidates with equal keyword count and equal duration
keep their input order. Determinism is definitional: the model is a pure
function of the segment list, so re-running it on the same input is the same
term. -/
theorem C2_ranking (segments : List Segment) :
    List.Perm (highlights segments) (segments.filter (fun s => decide (5 < s.duration))) ∧
    (∀ s ∈ highlights segments, 5 < s.duration) ∧
    List.Pairwise
      (fun a b => b.keywords < a.keywords ∨ (b.keywords = a.keywords ∧ b.duration ≤ a.duration))
      (highlights segments) ∧
    (∀ s t : Segment,
      List.Sublist [s, t] (segments.filter (fun s => decide (5 < s.duration))) →
      s.keywords = t.keywords → s.duration = t.duration →
      List.Sublist [s, t] (highlights segments)) := by
  refine ⟨List.mergeSort_perm _ _, ?_, ?_, ?_⟩
  · intro s hs
    rw [highlights, List.mem_mergeSort, List.mem_filter] at hs
    exact of_decide_eq_true hs.2
  · have h := @List.sorted_mergeSort Segment segLe
      (fun a b c hab hbc => segLe_trans a b c hab hbc) segLe_total
      (segments.filter (fun s => decide (5 < s.duration)))
    exact h.imp (fun hab => by simpa [segLe, decide_eq_true_eq] using hab)
  · intro s t hsub hk hd
    refine List.pair_sublist_mergeSort
      (fun a b c hab hbc => segLe_trans a b c hab hbc) segLe_total ?_ hsub
    simp only [segLe, decide_eq_true_eq]
    exact Or.inr ⟨hk.symm, le_of_eq hd.symm⟩

/-- Witness for C2 at the spec §8 example: the 3-12s segment (two keyword
hits) is a ranked candidate, hence its duration exceeds the 5s floor. -/
theorem C2_witness : (5 : ℚ) < exSegB.duration :=
  (C2_ranking exSegments).2.1 exSegB (by rw [highlights, List.mem_mergeSort]; decide)

/-! ### Selection loop: budget, clamping, failure isolation -/

theorem sumDur_append (a b : List Clip) : sumDur (a ++ b) = sumDur a + sumDur b := by
  simp [sumDur]

theorem generateGo_stop_any (maxClips : ℕ) (maxTotal : ℚ) (ok : ℕ → Bool)
    (l : List Segment) (idx : ℕ) (clips : List Clip) (total : ℚ)
    (h : maxClips ≤ clips.length ∨ maxTotal ≤ total) :
    generateGo maxClips maxTotal ok l idx clips total = clips := by
  cases l with
  | nil => rfl
  | cons s rest =>
    simp only [generateGo]
    rw [if_pos h]

theorem generateGo_budget (maxClips : ℕ) (maxTotal : ℚ) (ok : ℕ → Bool) :
    ∀ (l : List Segment) (idx : ℕ) (clips : List Clip) (total : ℚ),
      sumDur clips = total → total ≤ maxTotal → clips.length ≤ maxClips →
      sumDur (generateGo maxClips maxTotal ok l idx clips total) ≤ maxTotal ∧
      (generateGo maxClips maxTotal ok l idx clips total).length ≤ maxClips := by
  intro l
  induction l with
  | nil =>
    intro idx clips total hsum htot hlen
    exact ⟨hsum.trans_le htot, hlen⟩
  | cons s rest ih =>
    intro idx clips total hsum htot hlen
    by_cases hguard : maxClips ≤ clips.length ∨ maxTotal ≤ total
    · rw [generateGo_stop_any _ _ _ _ _ _ _ hguard]
      exact ⟨hsum.trans_le htot, hlen⟩
    · have hg := hguard
      push_neg at hg
      obtain ⟨hg1, hg2⟩ := hg
      simp only [generateGo]
      rw [if_neg hguard]
      by_cases hok : ok idx
      · rw [if_pos hok]
        by_cases hclamp : maxTotal < total + (s.«end» - s.start)
        · simp only [if_pos hclamp]
          refine ih _ _ _ ?_ ?_ ?_
          · rw [sumDur_append, hsum]
            simp [sumDur]
          · linarith
          · simp only [List.length_append, List.length_cons, List.length_nil]
            omega
        · simp only [if_neg hclamp]
          push_neg at hclamp
          refine ih _ _ _ ?_ ?_ ?_
          · rw [sumDur_append, hsum]
            simp [sumDur]
          · linarith
          · simp only [List.length_append, List.length_cons, List.length_nil]
            omega
      · rw [if_neg hok]
        exact ih _ _ _ hsum htot hlen

/-- C1 counterexample: the claim quantifies over *every* `maxTotalDuration`,
but for a negative budget (representable since the parameter is a float) the
loop guard `total_duration >= max_total_duration` fires immediately, the
function returns an empty clip list, and the sum of selected durations, `0`,
exceeds the budget `-1`. -/
theorem C1_counterexample :
    generate_highlight_clips [] 3 (-1) okTrue = [] ∧
    ¬ sumDur (generate_highlight_clips [] 3 (-1) okTrue) ≤ (-1 : ℚ) := by
  have h0 : highlights [] = [] := by simp [highlights]
  rw [generate_highlight_clips, h0]
  exact ⟨rfl, by norm_num [generateGo, sumDur]⟩

/-- C1 (amended): for every segment list, every `maxClips` and every
*non-negative* `maxTotalDuration`, and every pattern of per-clip encoder
success, `generate_highlight_clips` returns at most `maxClips` clips and the
sum of the returned clips' durations never exceeds `maxTotalDuration`;
moreover a single segment larger than the remaining budget is clamped to
exactly fit the budget rather than rejected. -/
theorem C1_budget_amended (segments : List Segment) (maxClips : ℕ) (maxTotal : ℚ)
    (ok : ℕ → Bool) (hpos : 0 ≤ maxTotal) :
    ((generate_highlight_clips segments maxClips maxTotal ok).length ≤ maxClips ∧
      sumDur (generate_highlight_clips segments maxClips maxTotal ok) ≤ maxTotal) ∧
    (∀ s : Segment, 0 < maxClips → 0 < maxTotal → 5 < s.duration →
      maxTotal < s.«end» - s.start → ok 0 = true →
      generate_highlight_clips [s] maxClips maxTotal ok =
        [⟨s.start, s.start + maxTotal, maxTotal, escapeText (wrappedText s.text), true⟩]) := by
  constructor
  · have h := generateGo_budget maxClips maxTotal ok (highlights segments) 0 [] 0 rfl hpos
      (by simp)
    exact ⟨h.2, h.1⟩
  · intro s hmc hmt h5 hover hok0
    have hh : highlights [s] = [s] := by
      rw [highlights]
      have hfil : List.filter (fun s => decide (5 < s.duration)) [s] = [s] := by
        simp [List.filter_cons, decide_eq_true h5]
      rw [hfil, List.mergeSort_singleton]
    rw [generate_highlight_clips, hh]
    simp only [generateGo]
    rw [if_neg (by push_neg; exact ⟨by simpa using hmc, by simpa using hmt⟩)]
    rw [if_pos hok0]
    have hc : maxTotal < 0 + (s.«end» - s.start) := by linarith
    simp only [if_pos hc, decide_eq_true hc]
    simp

/-- Witness for C1 (amended) at the spec §8 example segments with
`maxClips = 2`, `maxTotalDuration = 90` and an always-succeeding encoder. -/
theorem C1_witness :
    (generate_highlight_clips exSegments 2 90 okTrue).length ≤ 2 ∧
    sumDur (generate_highlight_clips exSegments 2 90 okTrue) ≤ 90 :=
  (C1_budget_amended exSegments 2 90 okTrue (by norm_num)).1

theorem generateGo_clamped (maxClips : ℕ) (maxTotal : ℚ) (ok : ℕ → Bool) :
    ∀ (l : List Segment) (idx : ℕ) (clips : List Clip) (total : ℚ),
      sumDur clips = total →
      (∀ (i : ℕ) (c : Clip), clips[i]? = some c → c.clamped = true →
        i = clips.length - 1 ∧ c.duration = maxTotal - sumDur (clips.take i) ∧
        maxTotal ≤ total) →
      ∀ (i : ℕ) (c : Clip),
        (generateGo maxClips maxTotal ok l idx clips total)[i]? = some c →
        c.clamped = true →
        i = (generateGo maxClips maxTotal ok l idx clips total).length - 1 ∧
        c.duration = maxTotal - sumDur ((generateGo maxClips maxTotal ok l idx clips total).take i) := by
  intro l
  induction l with
  | nil =>
    intro idx clips total hsum hpre i c hget hcl
    exact ⟨(hpre i c hget hcl).1, (hpre i c hget hcl).2.1⟩
  | cons s rest ih =>
    intro idx clips total hsum hpre
    by_cases hguard : maxClips ≤ clips.length ∨ maxTotal ≤ total
    · rw [generateGo_stop_any _ _ _ _ _ _ _ hguard]
      intro i c hget hcl
      exact ⟨(hpre i c hget hcl).1, (hpre i c hget hcl).2.1⟩
    · have hg := hguard
      push_neg at hg
      obtain ⟨hg1, hg2⟩ := hg
      have hnone : ∀ (i : ℕ) (c : Clip), clips[i]? = some c → c.clamped = false := by
        intro i c hget
        cases hc2 : c.clamped
        · rfl
        · exact absurd ((hpre i c hget hc2).2.2) (not_le.mpr hg2)
      simp only [generateGo]
      rw [if_neg hguard]
      by_cases hok : ok idx
      · rw [if_pos hok]
        by_cases hclamp : maxTotal < total + (s.«end» - s.start)
        · simp only [if_pos hclamp, decide_eq_true hclamp]
          refine ih _ _ _ ?_ ?_
          · rw [sumDur_append, hsum]
            simp [sumDur]
          · intro i c hget hcl
            rcases Nat.lt_or_ge i clips.length with hlt | hge
            · rw [List.getElem?_append_left hlt] at hget
              exact absurd (hnone i c hget) (by simp [hcl])
            · have hilen : i < clips.length + 1 := by
                obtain ⟨hb, -⟩ := List.getElem?_eq_some_iff.mp hget
                simpa using hb
              have hieq : i = clips.length := by omega
              subst hieq
              rw [List.getElem?_concat_length] at hget
              injection hget with hc2
              subst hc2
              refine ⟨by simp, ?_, by linarith⟩
              rw [List.take_left]
              simp [hsum]
        · simp only [if_neg hclamp, decide_eq_false hclamp]
          refine ih _ _ _ ?_ ?_
          · rw [sumDur_append, hsum]
            simp [sumDur]
          · intro i c hget hcl
            rcases Nat.lt_or_ge i clips.length with hlt | hge
            · rw [List.getElem?_append_left hlt] at hget
              exact absurd (hnone i c hget) (by simp [hcl])
            · have hilen : i < clips.length + 1 := by
                obtain ⟨hb, -⟩ := List.getElem?_eq_some_iff.mp hget
                simpa using hb
              have hieq : i = clips.length := by omega
              subst hieq
              rw [List.getElem?_concat_length] at hget
              injection hget with hc2
              subst hc2
              simp at hcl
      · rw [if_neg hok]
        exact ih _ _ _ hsum hpre

/-- C3: whenever the selection loop truncates a segment because accepting it
in full would exceed `maxTotalDuration` (the `clamped` flag records exactly
that branch), the produced clip's duration equals the remaining budget —
`maxTotalDuration` minus the durations already accepted before it — and the
clamped clip is the last entry of the returned list: selection stops once the
budget is exhausted. -/
theorem C3_clamped_last (segments : List Segment) (maxClips : ℕ) (maxTotal : ℚ)
    (ok : ℕ → Bool) (i : ℕ) (c : Clip)
    (hget : (generate_highlight_clips segments maxClips maxTotal ok)[i]? = some c)
    (hcl : c.clamped = true) :
    i = (generate_highlight_clips segments maxClips maxTotal ok).length - 1 ∧
    c.duration =
      maxTotal - sumDur ((generate_highlight_clips segments maxClips maxTotal ok).take i) :=
  generateGo_clamped maxClips maxTotal ok (highlights segments) 0 [] 0 rfl
    (by intro i c hget; simp at hget) i c hget hcl

theorem highlights_clampSegments : highlights clampSegments = clampSegments := by
  rw [highlights]
  have hfil : clampSegments.filter (fun s => decide (5 < s.duration)) = clampSegments := by decide
  rw [hfil]
  exact List.mergeSort_of_sorted (List.pairwise_pair.mpr (by decide))

theorem generate_clampSegments_eval :
    generate_highlight_clips clampSegments 3 90 okTrue =
      [⟨0, 65, 65, chars "k", false⟩, clampClip] := by
  have hk : escapeText (wrappedText (chars "k")) = chars "k" := by decide
  have hm : escapeText (wrappedText (chars "m")) = chars "m" := by decide
  rw [generate_highlight_clips, highlights_clampSegments]
  norm_num [generateGo, okTrue, clampSegments, clampClip, hk, hm]

/-- Witness for C3: the spec scenario — a 40s segment offered with 25s of
budget remaining (after a 65s clip of a 90s budget) is clamped to exactly 25s
and is the last entry. -/
theorem C3_witness :
    1 = (generate_highlight_clips clampSegments 3 90 okTrue).length - 1 ∧
    clampClip.duration =
      90 - sumDur ((generate_highlight_clips clampSegments 3 90 okTrue).take 1) :=
  C3_clamped_last clampSegments 3 90 okTrue 1 clampClip
    (by rw [generate_clampSegments_eval]; rfl) rfl

theorem generateGo_true_idx (maxClips : ℕ) (maxTotal : ℚ) :
    ∀ (l : List Segment) (idx jdx : ℕ) (clips : List Clip) (total : ℚ),
      generateGo maxClips maxTotal okTrue l idx clips total =
      generateGo maxClips maxTotal okTrue l jdx clips total := by
  intro l
  induction l with
  | nil => intro idx jdx clips total; rfl
  | cons s rest ih =>
    intro idx jdx clips total
    by_cases hguard : maxClips ≤ clips.length ∨ maxTotal ≤ total
    · rw [generateGo_stop_any _ _ _ _ _ _ _ hguard, generateGo_stop_any _ _ _ _ _ _ _ hguard]
    · simp only [generateGo, okTrue, if_true]
      rw [if_neg hguard, if_neg hguard]
      exact ih _ _ _ _

theorem generateGo_keepOk (maxClips : ℕ) (maxTotal : ℚ) (ok : ℕ → Bool) :
    ∀ (l : List Segment) (idx : ℕ) (clips : List Clip) (total : ℚ),
      generateGo maxClips maxTotal ok l idx clips total =
      generateGo maxClips maxTotal okTrue (keepOk ok idx l) idx clips total := by
  intro l
  induction l with
  | nil => intro idx clips total; rfl
  | cons s rest ih =>
    intro idx clips total
    by_cases hok : ok idx
    · simp only [keepOk, if_pos hok]
      by_cases hguard : maxClips ≤ clips.length ∨ maxTotal ≤ total
      · rw [generateGo_stop_any _ _ _ _ _ _ _ hguard, generateGo_stop_any _ _ _ _ _ _ _ hguard]
      · simp only [generateGo, okTrue, if_true]
        rw [if_neg hguard, if_neg hguard, if_pos hok]
        exact ih _ _ _
    · simp only [keepOk, if_neg hok]
      by_cases hguard : maxClips ≤ clips.length ∨ maxTotal ≤ total
      · rw [generateGo_stop_any _ _ _ _ _ _ _ hguard, generateGo_stop_any _ _ _ _ _ _ _ hguard]
      · simp only [generateGo]
        rw [if_neg hguard, if_neg (by simp [hok] : ¬(ok idx = true))]
        rw [ih _ _ _]
        exact generateGo_true_idx _ _ _ _ _ _ _

theorem generateGo_length (maxClips : ℕ) (maxTotal : ℚ) (ok : ℕ → Bool) :
    ∀ (l : List Segment) (idx : ℕ) (clips : List Clip) (total : ℚ),
      (generateGo maxClips maxTotal ok l idx clips total).length ≤ clips.length + l.length := by
  intro l
  induction l with
  | nil => intro idx clips total; simp [generateGo]
  | cons s rest ih =>
    intro idx clips total
    by_cases hguard : maxClips ≤ clips.length ∨ maxTotal ≤ total
    · rw [generateGo_stop_any _ _ _ _ _ _ _ hguard]
      simp
    · simp only [generateGo]
      rw [if_neg hguard]
      by_cases hok : ok idx
      · rw [if_pos hok]
        have h := ih (idx + 1)
          (clips ++ [⟨s.start,
            if maxTotal < total + (s.«end» - s.start) then s.start + (maxTotal - total)
              else s.«end»,
            if maxTotal < total + (s.«end» - s.start) then maxTotal - total
              else s.«end» - s.start,
            escapeText (wrappedText s.text),
            decide (maxTotal < total + (s.«end» - s.start))⟩])
          (total + if maxTotal < total + (s.«end» - s.start) then maxTotal - total
            else s.«end» - s.start)
        simp only [List.length_append, List.length_cons, List.length_nil] at h ⊢
        omega
      · rw [if_neg hok]
        have h := ih (idx + 1) clips total
        simp only [List.length_cons] at h ⊢
        omega

/-- C7: a per-clip encoder failure is skipped, never fatal: for every pattern
`ok` of per-iteration encoder outcomes, the run of `generate_highlight_clips`
equals the run of the same loop with an always-succeeding encoder over the
highlight list from which the failed iterations' segments have been removed —
the failing render changes nothing except dropping its own clip, and all
remaining highlights are still processed. Consequently the returned clip list
never exceeds (and, when renders fail, may be shorter than) the highlight
list. -/
theorem C7_failure_isolated (segments : List Segment) (maxClips : ℕ) (maxTotal : ℚ)
    (ok : ℕ → Bool) :
    generate_highlight_clips segments maxClips maxTotal ok =
      generateGo maxClips maxTotal okTrue (keepOk ok 0 (highlights segments)) 0 [] 0 ∧
    (generate_highlight_clips segments maxClips maxTotal ok).length ≤
      (highlights segments).length :=
  ⟨generateGo_keepOk maxClips maxTotal ok (highlights segments) 0 [] 0,
    by simpa using generateGo_length maxClips maxTotal ok (highlights segments) 0 [] 0⟩

/-! ### Reel assembly -/

/-- C8: `combine_clips_into_reel` concatenates exactly
`[intro card] + caller-supplied clip files in caller order + [outro card]`:
in the input file list it builds (line 210), the intro card is first, the
outro card is last, and the `i`-th caller-supplied clip sits at position
`i + 1` — no resorting by filename, ranking or timestamps. -/
theorem C8_concat_order (clipsFolder : List Char) (clipFiles : List (List Char)) :
    (all_files clipsFolder clipFiles).length = clipFiles.length + 2 ∧
    (all_files clipsFolder clipFiles).head? = some (intro_path clipsFolder) ∧
    (all_files clipsFolder clipFiles).getLast? = some (outro_path clipsFolder) ∧
    ∀ i : ℕ, i < clipFiles.length →
      (all_files clipsFolder clipFiles)[i + 1]? =
        (clipFiles[i]?).map (fun f => pathJoin clipsFolder f) := by
  refine ⟨by simp [all_files], rfl, ?_, ?_⟩
  · rw [all_files]
    exact List.getLast?_concat _
  · intro i hi
    rw [all_files]
    rw [List.getElem?_append_left (by simp only [List.length_append, List.length_cons,
      List.length_nil, List.length_map]; omega)]
    have hcons : [intro_path clipsFolder] ++ clipFiles.map (fun f => pathJoin clipsFolder f) =
        intro_path clipsFolder :: clipFiles.map (fun f => pathJoin clipsFolder f) := rfl
    rw [hcons, List.getElem?_cons_succ, List.getElem?_map]

/-- Witness for C8 with two clips in a concrete folder: the second
caller-supplied clip sits at position 2 of the concatenation input list. -/
theorem C8_witness :
    (all_files (chars "clips") [chars "a.mp4", chars "b.mp4"])[2]? =
      some (pathJoin (chars "clips") (chars "b.mp4")) := by
  have h := (C8_concat_order (chars "clips") [chars "a.mp4", chars "b.mp4"]).2.2.2 1 (by decide)
  simpa using h

theorem natReprGo_digit : ∀ (fuel n : ℕ) (acc : List Char),
    (∀ c ∈ acc, 48 ≤ c.toNat ∧ c.toNat ≤ 57) →
    ∀ c ∈ natReprGo fuel n acc, 48 ≤ c.toNat ∧ c.toNat ≤ 57 := by
  intro fuel
  induction fuel with
  | zero =>
    intro n acc hacc c hc
    exact hacc c hc
  | succ fuel ih =>
    intro n acc hacc c hc
    rw [natReprGo] at hc
    by_cases h10 : n < 10
    · rw [if_pos h10] at hc
      rcases List.mem_cons.mp hc with h | h
      · subst h
        interval_cases n <;> decide
      · exact hacc c h
    · rw [if_neg h10] at hc
      refine ih (n / 10) _ ?_ c hc
      intro c2 hc2
      rcases List.mem_cons.mp hc2 with h | h
      · subst h
        have hmod : n % 10 < 10 := Nat.mod_lt n (by norm_num)
        generalize hm : n % 10 = m at hmod ⊢
        interval_cases m <;> decide
      · exact hacc c2 h

theorem natRepr_digit (n : ℕ) : ∀ c ∈ natRepr n, 48 ≤ c.toNat ∧ c.toNat ≤ 57 :=
  natReprGo_digit (n + 1) n [] (fun c hc => absurd hc (List.not_mem_nil c))

theorem leadsWith_mem (pat : List Char) :
    ∀ t : List Char, leadsWith pat t = true → ∀ c ∈ pat, c ∈ t := by
  induction pat with
  | nil =>
    intro t _ c hc
    exact absurd hc (List.not_mem_nil c)
  | cons a pat ih =>
    intro t h c hc
    cases t with
    | nil => simp [leadsWith] at h
    | cons b t =>
      simp only [leadsWith, Bool.and_eq_true, beq_iff_eq] at h
      obtain ⟨hab, hrest⟩ := h
      rcases List.mem_cons.mp hc with hca | hcp
      · exact (hca.trans hab) ▸ List.mem_cons_self b t
      · exact List.mem_cons_of_mem b (ih t hrest c hcp)

theorem occursSub_mem (pat s : List Char) (h : occursSub pat s = true) :
    ∀ c ∈ pat, c ∈ s := by
  intro c hc
  rw [occursSub, List.any_eq_true] at h
  obtain ⟨t, ht, hlw⟩ := h
  exact ((List.mem_tails _ _).mp ht).subset (leadsWith_mem pat t hlw c hc)

theorem p_not_mem_filter_complex (n : ℕ) : ('p' : Char) ∉ filter_complex n := by
  intro h
  simp only [filter_complex, List.mem_append] at h
  rcases h with ((h | h) | h) | h
  · rw [List.mem_flatMap] at h
    obtain ⟨i, -, hi⟩ := h
    simp only [filterPart, List.mem_append] at hi
    rcases hi with (((h1 | h1) | h1) | h1) | h1
    · exact absurd h1 (by decide)
    · exact absurd (natRepr_digit i 'p' h1).2 (by decide)
    · exact absurd h1 (by decide)
    · exact absurd (natRepr_digit i 'p' h1).2 (by decide)
    · exact absurd h1 (by decide)
  · exact absurd h (by decide)
  · exact absurd (natRepr_digit n 'p' h).2 (by decide)
  · exact absurd h (by decide)

/-- C9 counterexample: for the concrete invocation with one clip `a.mp4` in
folder `clips`, the filter graph `combine_clips_into_reel` constructs is
exactly the plain stream-selection/concat graph shown — it contains no
`setpts`/`asetpts` step, and no argument of the whole concatenation command
mentions `setpts`: there is no per-input timestamp reset. -/
theorem C9_counterexample :
    filter_complex (all_files (chars "clips") [chars "a.mp4"]).length =
      chars "[0:v:0][0:a:0][1:v:0][1:a:0][2:v:0][2:a:0]concat=n=3:v=1:a=1[outv][outa]" ∧
    hasArgWith (chars "setpts")
      (concat_cmd (chars "clips") [chars "a.mp4"] default_output_file) = false := by
  decide

/-- C9 (amended): the reel assembler performs no per-input timestamp reset:
for every number of input files, the filter-graph description it constructs
contains no `setpts` (hence no `asetpts`) filter — each input's streams are
passed directly to the single `concat` filter. -/
theorem C9_no_timestamp_reset (n : ℕ) :
    occursSub (chars "setpts") (filter_complex n) = false := by
  by_contra h
  rw [Bool.not_eq_false] at h
  exact p_not_mem_filter_complex n (occursSub_mem _ _ h 'p' (by decide))

/-- C10 counterexample: with an empty clip list `combine_clips_into_reel`
returns `None` (after only printing) before creating any card or reel file,
so it is not true that *every* invocation writes the cards and the reel. -/
theorem C10_counterexample :
    combine_clips_into_reel [] (chars "clips") default_output_file = none := rfl

/-- C10 (amended): every invocation with a *nonempty* clip list targets the
fixed card paths `intro.mp4` and `outro.mp4` inside `clips_folder` and writes
the reel to `output_file` (whose default is the fixed name
`highlight_reel.mp4`). These paths do not depend on the clip list, so any two
runs sharing a `clips_folder` write to (and, with the encoder's overwrite
flag, overwrite) the same card and reel paths; the per-clip filenames, by
contrast, are derived injectively from the drawn uuid and so differ whenever
the uuid draws differ. -/
theorem C10_fixed_paths_amended (clipFiles : List (List Char))
    (clipsFolder outputFile : List Char) (hne : clipFiles ≠ []) :
    (combine_clips_into_reel clipFiles clipsFolder outputFile).map ReelPlan.introPath =
      some (pathJoin clipsFolder (chars "intro.mp4")) ∧
    (combine_clips_into_reel clipFiles clipsFolder outputFile).map ReelPlan.outroPath =
      some (pathJoin clipsFolder (chars "outro.mp4")) ∧
    (combine_clips_into_reel clipFiles clipsFolder outputFile).map ReelPlan.outputPath =
      some (pathJoin clipsFolder outputFile) ∧
    default_output_file = chars "highlight_reel.mp4" ∧
    (∀ other : List (List Char), other ≠ [] →
      (combine_clips_into_reel other clipsFolder outputFile).map ReelPlan.introPath =
        (combine_clips_into_reel clipFiles clipsFolder outputFile).map ReelPlan.introPath ∧
      (combine_clips_into_reel other clipsFolder outputFile).map ReelPlan.outroPath =
        (combine_clips_into_reel clipFiles clipsFolder outputFile).map ReelPlan.outroPath ∧
      (combine_clips_into_reel other clipsFolder outputFile).map ReelPlan.outputPath =
        (combine_clips_into_reel clipFiles clipsFolder outputFile).map ReelPlan.outputPath) ∧
    (∀ u v : List Char, clip_filename u = clip_filename v → u = v) := by
  have hbase : ∀ cf : List (List Char), cf ≠ [] →
      (combine_clips_into_reel cf clipsFolder outputFile).map ReelPlan.introPath =
        some (intro_path clipsFolder) ∧
      (combine_clips_into_reel cf clipsFolder outputFile).map ReelPlan.outroPath =
        some (outro_path clipsFolder) ∧
      (combine_clips_into_reel cf clipsFolder outputFile).map ReelPlan.outputPath =
        some (pathJoin clipsFolder outputFile) := by
    intro cf hcf
    rw [combine_clips_into_reel, if_neg hcf]
    exact ⟨rfl, rfl, rfl⟩
  obtain ⟨h1, h2, h3⟩ := hbase clipFiles hne
  refine ⟨h1, h2, h3, rfl, ?_, ?_⟩
  · intro other hother
    obtain ⟨g1, g2, g3⟩ := hbase other hother
    exact ⟨g1.trans h1.symm, g2.trans h2.symm, g3.trans h3.symm⟩
  · intro u v huv
    simpa [clip_filename] using huv

/-- Witness for C10 (amended) at a concrete one-clip invocation. -/
theorem C10_witness :
    (combine_clips_into_reel [chars "a.mp4"] (chars "clips") default_output_file).map
      ReelPlan.introPath = some (pathJoin (chars "clips") (chars "intro.mp4")) :=
  (C10_fixed_paths_amended [chars "a.mp4"] (chars "clips") default_output_file (by simp)).1

end ClipCompass
